import Mathlib

/-
  Verification development for the FWD vocoder engine
  (`vocoderEngine.js` of the FWD-Vocoder Discord bot).

  The engine decodes a modulator and a carrier buffer, builds a 16-band
  bandpass/envelope/resynthesis graph at a fixed 48 kHz working rate, and
  renders a mono output that is compressed, boosted and soft-clipped.
  The definitions below embed the engine's own arithmetic (Q-factor mapping,
  log-spaced band frequencies, lookup-curve tables, output-length computation,
  orchestration control flow) directly from the source; the signal-processing
  semantics of the Web Audio nodes the engine instantiates live in the
  `node-web-audio-api` dependency and are modelled from the specification,
  as marked on each such definition.
-/

namespace FWD

/-- Fixed working sample rate of the processing context (`WORK_RATE = 48000`). -/
def WORK_RATE : ℕ := 48000

/-- A decoded audio buffer as handed to the engine by the decode collaborator:
a sample rate, a channel count, a frame count, and per-channel sample data
(`channelData ch n` is the sample of channel `ch` at frame `n`). -/
structure DecodedAudio where
  sampleRate : ℕ
  numberOfChannels : ℕ
  length : ℕ
  channelData : ℕ → ℕ → ℝ

/-- Duration of a decoded buffer in seconds:
`modDecoded.length / modDecoded.sampleRate` (source line 106/107). -/
def durationOf (d : DecodedAudio) : ℚ :=
  (d.length : ℚ) / (d.sampleRate : ℚ)

/-- Total frames rendered for one job:
`Math.floor(Math.min(modDuration, carDuration) * WORK_RATE)`
(source lines 108 and 113). -/
def lengthSamples (modD carD : DecodedAudio) : ℕ :=
  (⌊min (durationOf modD) (durationOf carD) * (WORK_RATE : ℚ)⌋).toNat

/-- Lower end of the Q-factor range (`minQ = 0.5`, source line 125). -/
def minQ : ℝ := 0.5

/-- Upper end of the Q-factor range (`maxQ = 15`, source line 126). -/
def maxQ : ℝ := 15

/-- Width-to-Q mapping of the engine (source line 129):
`qFactor = maxQ - ((widthPercent / 100) * (maxQ - minQ))`. -/
noncomputable def qFactor (widthPercent : ℝ) : ℝ :=
  maxQ - widthPercent / 100 * (maxQ - minQ)

/-- Entry `i` of the rectifier lookup table (source line 235):
`curve[i] = Math.abs((i * 2) / 65536 - 1)`. -/
def absEntry (i : ℕ) : ℚ :=
  |(i : ℚ) * 2 / 65536 - 1|

/-- The rectifier lookup table built by `getAbsCurve` (source lines 231-238):
65536 entries, entry `i` being `|2·i/65536 - 1|`. -/
def getAbsCurve : List ℚ :=
  (List.range 65536).map absEntry

/-- The normalized input sampled by table index `i`: `x_i = 2·i/65536 - 1`
(both lookup tables use this grid, source lines 235 and 247). -/
def sampledInput (i : ℕ) : ℚ :=
  (i : ℚ) * 2 / 65536 - 1

noncomputable section

/-- Entry `i` of the soft-clip lookup table (source lines 247-249):
`x = (i * 2) / size - 1` and `curve[i] = (2 / Math.PI) * Math.atan(2 * x)`. -/
def softClipEntry (i : ℕ) : ℝ :=
  2 / Real.pi * Real.arctan (2 * ((i : ℝ) * 2 / 65536 - 1))

/-- The soft-clip lookup table built by `getSoftClipCurve` (source lines
241-252): 65536 entries of `(2/π)·atan(2·x_i)`. -/
def getSoftClipCurve : List ℝ :=
  (List.range 65536).map softClipEntry

/-- Frequency `i` of the band planner (source line 260):
`Math.exp(logMin + step * i)` with `step = (logMax - logMin) / (count - 1)`. -/
def freqAt (minHz maxHz : ℝ) (count i : ℕ) : ℝ :=
  Real.exp (Real.log minHz + (Real.log maxHz - Real.log minHz) / ((count : ℝ) - 1) * (i : ℝ))

/-- `logFrequencies(min, max, count)` (source lines 254-263): the ordered list
of `count` logarithmically spaced frequencies from `min` to `max`. -/
def logFrequencies (minHz maxHz : ℝ) (count : ℕ) : List ℝ :=
  (List.range count).map (freqAt minHz maxHz count)

/-- Number of vocoder bands (`bands = 16`, source line 132). -/
def bands : ℕ := 16

/-- The engine's band center frequencies:
`logFrequencies(80, 7000, bands)` (source line 133). -/
def frequencies : List ℝ :=
  logFrequencies 80 7000 bands

/-- Sample of a decoded buffer read at frame `k` of channel `ch`; outside the
buffer's `length` frames the source yields silence. -/
def sampleAt (d : DecodedAudio) (ch k : ℕ) : ℝ :=
  if k < d.length then d.channelData ch k else 0

/-- Modelled from the spec: playback of an `AudioBufferSourceNode` built by
`createBufferSource` (source lines 216-228), which copies every channel of the
decoded data into the context buffer. The spec fixes the working rate at
48000 Hz and makes rate conversion the rendering context's responsibility;
the conversion is modelled as linear interpolation at playback position
`n · sampleRate / WORK_RATE`, which is the identity read when the buffer is
already at the working rate. -/
def sourceSignal (d : DecodedAudio) (ch : ℕ) (n : ℕ) : ℝ :=
  let pos : ℚ := (n : ℚ) * (d.sampleRate : ℚ) / (WORK_RATE : ℚ)
  let k : ℕ := (⌊pos⌋).toNat
  let frac : ℚ := pos - (k : ℚ)
  (1 - (frac : ℝ)) * sampleAt d ch k + (frac : ℝ) * sampleAt d ch (k + 1)

/-- Normalized biquad filter coefficients (already divided by `a0`). -/
structure BiquadCoeffs where
  b0 : ℝ
  b1 : ℝ
  b2 : ℝ
  a1 : ℝ
  a2 : ℝ

/-- One step of the direct-form-I biquad recurrence: from the delay state
`(x1, x2, y1, y2)` and the current input `x`, produce the output
`b0·x + b1·x1 + b2·x2 - a1·y1 - a2·y2` and the next delay state. -/
def biquadStep (c : BiquadCoeffs) (s : ℝ × ℝ × ℝ × ℝ) (x : ℝ) : ℝ × (ℝ × ℝ × ℝ × ℝ) :=
  (c.b0 * x + c.b1 * s.1 + c.b2 * s.2.1 - c.a1 * s.2.2.1 - c.a2 * s.2.2.2,
    (x, s.1, c.b0 * x + c.b1 * s.1 + c.b2 * s.2.1 - c.a1 * s.2.2.1 - c.a2 * s.2.2.2, s.2.2.1))

/-- Delay state of a biquad before processing sample `n` (zero initial state). -/
def biquadState (c : BiquadCoeffs) (u : ℕ → ℝ) : ℕ → ℝ × ℝ × ℝ × ℝ
  | 0 => (0, 0, 0, 0)
  | n + 1 => (biquadStep c (biquadState c u n) (u n)).2

/-- Modelled from the spec: output sample `n` of a `BiquadFilterNode` running
the standard direct-form recurrence
`y[n] = b0·x[n] + b1·x[n-1] + b2·x[n-2] - a1·y[n-1] - a2·y[n-2]`
from zero initial state, as implemented by `node-web-audio-api`. -/
def biquad (c : BiquadCoeffs) (u : ℕ → ℝ) (n : ℕ) : ℝ :=
  (biquadStep c (biquadState c u n) (u n)).1

/-- Normalized angular frequency of a filter centered at `f` Hz in the
48 kHz context: `ω = 2π·f / WORK_RATE`. -/
def omega0 (f : ℝ) : ℝ :=
  2 * Real.pi * f / (WORK_RATE : ℝ)

/-- Modelled from the spec: Web Audio bandpass biquad coefficients for center
frequency `f` and quality `q` (`α = sin ω / (2q)`, `b0 = α`, `b1 = 0`,
`b2 = -α`, `a0 = 1 + α`, `a1 = -2 cos ω`, `a2 = 1 - α`, normalized by `a0`),
used for the per-band modulator and carrier filters (source lines 172, 178). -/
def bandpassCoeffs (f q : ℝ) : BiquadCoeffs :=
  let w := omega0 f
  let alpha := Real.sin w / (2 * q)
  ⟨alpha / (1 + alpha), 0, -alpha / (1 + alpha),
    -2 * Real.cos w / (1 + alpha), (1 - alpha) / (1 + alpha)⟩

/-- Modelled from the spec: Web Audio lowpass biquad coefficients at cutoff
`f` with the default quality (`Q = 1`, interpreted in dB, so
`α = sin ω / (2·10^(1/20))`; `b0 = (1-cos ω)/2`, `b1 = 1-cos ω`, `b2 = b0`,
`a0 = 1+α`, `a1 = -2 cos ω`, `a2 = 1-α`, normalized by `a0`), used for the
envelope follower (source line 175). -/
def lowpassCoeffs (f : ℝ) : BiquadCoeffs :=
  let w := omega0 f
  let alpha := Real.sin w / (2 * (10 : ℝ) ^ ((1 : ℝ) / 20))
  ⟨(1 - Real.cos w) / 2 / (1 + alpha), (1 - Real.cos w) / (1 + alpha),
    (1 - Real.cos w) / 2 / (1 + alpha),
    -2 * Real.cos w / (1 + alpha), (1 - alpha) / (1 + alpha)⟩

/-- Envelope-follower lowpass cutoff (source line 175: 40 Hz). -/
def envelopeCutoff : ℝ := 40

/-- Modelled from the spec: the `WaveShaperNode` holding the table of
`getAbsCurve` behaves as the continuous rectifier function
`output(x) = |x|` sampled at the table's resolution (spec section 4.2);
it is modelled as that continuous function. -/
def absShape (x : ℝ) : ℝ := |x|

/-- Modelled from the spec: the `WaveShaperNode` holding the table of
`getSoftClipCurve` behaves as the continuous saturating function
`output(x) = (2/π)·atan(2x)` sampled at the table's resolution (spec
section 4.2); it is modelled as that continuous function. -/
def softClipShape (x : ℝ) : ℝ :=
  2 / Real.pi * Real.arctan (2 * x)

/-- Modelled from the spec: the mono down-mix the rendering context applies
at a mono input (the destination of the 1-channel context, and an
`AudioParam` input): a stereo signal becomes `(ch0 + ch1)/2`; a mono signal
passes through; other layouts are read discretely through channel 0. -/
def downmixAt (k : ℕ) (sig : ℕ → ℝ) : ℝ :=
  if k = 2 then (sig 0 + sig 1) / 2 else sig 0

/-- Per-channel rectified band-filtered modulator of the band at `f`:
modulator source → bandpass(f, q) → rectifier curve (source lines 183-185). -/
def rectified (q f : ℝ) (modD : DecodedAudio) (ch : ℕ) (n : ℕ) : ℝ :=
  absShape (biquad (bandpassCoeffs f q) (sourceSignal modD ch) n)

/-- Per-channel envelope signal of the band at `f`: rectified signal →
lowpass at `envelopeCutoff` (source line 185). -/
def envelopeSig (q f : ℝ) (modD : DecodedAudio) (ch : ℕ) : ℕ → ℝ :=
  biquad (lowpassCoeffs envelopeCutoff) (rectified q f modD ch)

/-- The mono envelope that drives the band's gain parameter: the per-channel
envelope chain down-mixed at the `bandGain.gain` parameter input
(source line 188). -/
def envelopeMono (q f : ℝ) (modD : DecodedAudio) (n : ℕ) : ℝ :=
  downmixAt modD.numberOfChannels (fun ch => envelopeSig q f modD ch n)

/-- Base value of each band's gain parameter (`bandGain.gain.value = 0`,
source line 180); the envelope signal is added on top of it. -/
def bandGainBase : ℝ := 0

/-- Channel `ch` of the output of one band: the bandpass-filtered carrier
multiplied by the gain parameter `bandGainBase + envelope`
(source lines 191-192 and 188). -/
def bandOut (q f : ℝ) (modD carD : DecodedAudio) (ch n : ℕ) : ℝ :=
  (bandGainBase + envelopeMono q f modD n) *
    biquad (bandpassCoeffs f q) (sourceSignal carD ch) n

/-- Gain of the summing bus (`summingGain.gain.value = 1.0`, source line 142). -/
def summingGainValue : ℝ := 1

/-- Channel `ch` of the summing bus: the sum of all band outputs times the
summing gain (source lines 141-142 and 195). -/
def summedSig (q : ℝ) (modD carD : DecodedAudio) (ch : ℕ) (n : ℕ) : ℝ :=
  summingGainValue * (frequencies.map (fun f => bandOut q f modD carD ch n)).sum

/-- Linear amplitude of the compressor threshold (−24 dB, source line 146). -/
def compThreshold : ℝ :=
  (10 : ℝ) ^ ((-24 : ℝ) / 20)

/-- Compression ratio of the compressor (12:1, source line 148). -/
def compRatio : ℝ := 12

/-- Modelled from the spec: the gain the `DynamicsCompressorNode` applies at
input level `level` — unity below the −24 dB threshold, and above it the
static 12:1 compression curve `(T + (level - T)/ratio) / level`. The node's
knee and attack/release smoothing are time-dependent details of the library
not needed by any claim; the model keeps the deterministic, zero-preserving,
sign-preserving static curve. -/
def compressorGain (level : ℝ) : ℝ :=
  if level ≤ compThreshold then 1
  else (compThreshold + (level - compThreshold) / compRatio) / level

/-- Per-sample action of the compressor: the input scaled by the gain
derived from its own level (source lines 145-151). -/
def compress (x : ℕ → ℝ) (n : ℕ) : ℝ :=
  compressorGain |x n| * x n

/-- Makeup gain after the compressor (`makeupGain.gain.value = 4.0`,
source line 156). -/
def makeupGainValue : ℝ := 4

/-- The output chain applied to one channel of the summing bus:
compressor → makeup gain ×4 → soft-clip limiter (source lines 164-167). -/
def postChain (x : ℕ → ℝ) (n : ℕ) : ℝ :=
  softClipShape (makeupGainValue * compress x n)

/-- Channel `ch` of the signal arriving at the context destination:
the summing bus of all bands pushed through the output chain. -/
def renderedChannel (w : ℝ) (modD carD : DecodedAudio) (ch : ℕ) (n : ℕ) : ℝ :=
  postChain (fun m => summedSig (qFactor w) modD carD ch m) n

/-- Sample `n` of the mono rendered output: the destination of the 1-channel
context down-mixes the channels carried by the graph (the carrier's channel
count, since the signal path runs from the carrier source). -/
def renderedOutput (modD carD : DecodedAudio) (w : ℝ) (n : ℕ) : ℝ :=
  downmixAt carD.numberOfChannels (fun ch => renderedChannel w modD carD ch n)

/-- The encoded result of one job: the rendered mono buffer at the working
rate (`WavEncoder.encode` with `sampleRate: WORK_RATE` and channel 0 of the
rendered buffer, source lines 207-210). -/
structure WavData where
  sampleRate : ℕ
  frames : ℕ
  samples : ℕ → ℝ

/-- Error taxonomy of the engine boundary (spec section 7). -/
inductive VocError where
  | decodeError : VocError
  | validationError : VocError
  | engineError : VocError
deriving DecidableEq

/-- `runVocoder(modArrayBuf, carArrayBuf, widthPercent = 50)` (source lines
101-213), with the two decode-collaborator results made explicit: a `none`
input is a buffer the decoder rejects (surfaced as a decode error). On two
successful decodes the function computes the common duration; when the
computed frame count is zero (an empty or sub-one-frame input), the
`OfflineAudioContext(1, 0, 48000)` construction fails — modelled from the
spec: section 4.5 classifies a zero or negative computed duration as the
validation-error condition — and otherwise the function renders
`lengthSamples` frames of the band graph at the requested width and returns
the encoded mono buffer. The source contains no width check on any path:
whether a call errors never depends on the width value. -/
def runVocoder (modDecoded carDecoded : Option DecodedAudio)
    (widthPercent : ℝ := 50) : Except VocError WavData :=
  match modDecoded with
  | none => Except.error VocError.decodeError
  | some modD =>
    match carDecoded with
    | none => Except.error VocError.decodeError
    | some carD =>
      if lengthSamples modD carD = 0 then Except.error VocError.validationError
      else
        Except.ok ⟨WORK_RATE, lengthSamples modD carD,
          fun n => if n < lengthSamples modD carD then renderedOutput modD carD widthPercent n else 0⟩

/-- Whether an engine call produced an output, i.e. reached rendering and
encoding rather than stopping at an error. -/
def vocSucceeds (r : Except VocError WavData) : Bool :=
  match r with
  | Except.ok _ => true
  | Except.error _ => false

/-- A 3-second silent mono buffer at 44.1 kHz, used as a concrete modulator. -/
def modWitnessBuf : DecodedAudio := ⟨44100, 1, 132300, fun _ _ => 0⟩

/-- A 2-second silent mono buffer at 48 kHz, used as a concrete carrier. -/
def carWitnessBuf : DecodedAudio := ⟨48000, 1, 96000, fun _ _ => 0⟩

/-- A one-frame mono unit impulse at the working rate. -/
def impulseMod : DecodedAudio := ⟨48000, 1, 1, fun _ _ => 1⟩

/-- The same audible content as `impulseMod` on channel 0, with junk values in
the unused channel slots of the sample table. -/
def impulseModJunk : DecodedAudio := ⟨48000, 1, 1, fun ch _ => if ch = 0 then 1 else 7⟩

/-- A one-frame silent mono carrier at the working rate. -/
def monoCarBuf : DecodedAudio := ⟨48000, 1, 1, fun _ _ => 0⟩

/-- A one-frame silent stereo carrier at the working rate. -/
def silentStereoCar : DecodedAudio := ⟨48000, 2, 1, fun _ _ => 0⟩

/-- A one-frame stereo carrier that is silent on channel 0 and carries a unit
impulse on channel 1. -/
def rightStereoCar : DecodedAudio := ⟨48000, 2, 1, fun ch _ => if ch = 1 then 1 else 0⟩

end

/-! ## Helper lemmas -/

theorem getAbsCurve_getD (i : ℕ) (h : i < 65536) :
    getAbsCurve.getD i 0 = absEntry i := by
  have hlen : i < getAbsCurve.length := by simpa [getAbsCurve] using h
  rw [List.getD_eq_getElem _ _ hlen]
  simp [getAbsCurve]

theorem lengthSamples_le_durations (modD carD : DecodedAudio) :
    ((lengthSamples modD carD : ℕ) : ℚ) ≤ durationOf modD * 48000 ∧
    ((lengthSamples modD carD : ℕ) : ℚ) ≤ durationOf carD * 48000 := by
  have hwr : ((WORK_RATE : ℕ) : ℚ) = 48000 := by norm_num [WORK_RATE]
  have hdm : 0 ≤ durationOf modD := div_nonneg (Nat.cast_nonneg _) (Nat.cast_nonneg _)
  have hdc : 0 ≤ durationOf carD := div_nonneg (Nat.cast_nonneg _) (Nat.cast_nonneg _)
  have hmin : 0 ≤ min (durationOf modD) (durationOf carD) * ((WORK_RATE : ℕ) : ℚ) :=
    mul_nonneg (le_min hdm hdc) (by norm_num [WORK_RATE])
  have hfl : 0 ≤ ⌊min (durationOf modD) (durationOf carD) * ((WORK_RATE : ℕ) : ℚ)⌋ :=
    Int.floor_nonneg.mpr hmin
  have hcast : ((lengthSamples modD carD : ℕ) : ℚ)
      = ((⌊min (durationOf modD) (durationOf carD) * ((WORK_RATE : ℕ) : ℚ)⌋ : ℤ) : ℚ) := by
    unfold lengthSamples
    exact_mod_cast Int.toNat_of_nonneg hfl
  have hle := Int.floor_le (min (durationOf modD) (durationOf carD) * ((WORK_RATE : ℕ) : ℚ))
  constructor
  · calc ((lengthSamples modD carD : ℕ) : ℚ)
        ≤ min (durationOf modD) (durationOf carD) * ((WORK_RATE : ℕ) : ℚ) := by
          rw [hcast]; exact hle
      _ ≤ durationOf modD * 48000 := by
          rw [hwr]
          exact mul_le_mul_of_nonneg_right (min_le_left _ _) (by norm_num)
  · calc ((lengthSamples modD carD : ℕ) : ℚ)
        ≤ min (durationOf modD) (durationOf carD) * ((WORK_RATE : ℕ) : ℚ) := by
          rw [hcast]; exact hle
      _ ≤ durationOf carD * 48000 := by
          rw [hwr]
          exact mul_le_mul_of_nonneg_right (min_le_right _ _) (by norm_num)

/-! ## Claims -/

/-- C1: for every width `w` in `[0, 100]` the derived Q-factor equals
`15 - (w/100)·(15 - 0.5)`; it takes the value 15 at width 0 and 0.5 at
width 100, always lies in `[0.5, 15]`, and is monotonically non-increasing
in the width. -/
theorem qFactor_spec (w : ℝ) (h0 : 0 ≤ w) (h1 : w ≤ 100) :
    qFactor w = 15 - w / 100 * (15 - 0.5) ∧
    qFactor 0 = 15 ∧
    qFactor 100 = 0.5 ∧
    0.5 ≤ qFactor w ∧ qFactor w ≤ 15 ∧
    (∀ w2, w ≤ w2 → qFactor w2 ≤ qFactor w) := by
  refine ⟨by norm_num [qFactor, maxQ, minQ], by norm_num [qFactor, maxQ, minQ],
    by norm_num [qFactor, maxQ, minQ], ?_, ?_, ?_⟩
  · simp only [qFactor, maxQ, minQ]
    nlinarith
  · simp only [qFactor, maxQ, minQ]
    nlinarith
  · intro w2 hle
    simp only [qFactor, maxQ, minQ]
    nlinarith

/-- Witness for C1 at width 30. -/
theorem qFactor_spec_witness :
    (0 : ℝ) ≤ 30 ∧ (30 : ℝ) ≤ 100 ∧
    (qFactor 30 = 15 - 30 / 100 * (15 - 0.5) ∧
      qFactor 0 = 15 ∧
      qFactor 100 = 0.5 ∧
      0.5 ≤ qFactor 30 ∧ qFactor 30 ≤ 15 ∧
      (∀ w2, (30 : ℝ) ≤ w2 → qFactor w2 ≤ qFactor 30)) :=
  ⟨by norm_num, by norm_num, qFactor_spec 30 (by norm_num) (by norm_num)⟩

/-- C3: the rendered output length equals
`floor(min(modLength/modRate, carLength/carRate) · 48000)` frames; it depends
on the inputs' sample rates only through their durations, never exceeds
either input's duration in working-rate frames (truncation, no padding), and
in particular durations 3 s and 2 s give exactly `floor(2 · 48000) = 96000`
frames at any sample rates. -/
theorem outputLength_spec (modD carD : DecodedAudio)
    (hm : 0 < modD.sampleRate) (hc : 0 < carD.sampleRate) :
    lengthSamples modD carD =
      (⌊min ((modD.length : ℚ) / (modD.sampleRate : ℚ))
          ((carD.length : ℚ) / (carD.sampleRate : ℚ)) * 48000⌋).toNat ∧
    (∀ modD2 carD2 : DecodedAudio, durationOf modD2 = durationOf modD →
      durationOf carD2 = durationOf carD →
      lengthSamples modD2 carD2 = lengthSamples modD carD) ∧
    ((lengthSamples modD carD : ℚ) ≤ durationOf modD * 48000) ∧
    ((lengthSamples modD carD : ℚ) ≤ durationOf carD * 48000) ∧
    (durationOf modD = 3 → durationOf carD = 2 → lengthSamples modD carD = 96000) := by
  refine ⟨?_, ?_, (lengthSamples_le_durations modD carD).1,
    (lengthSamples_le_durations modD carD).2, ?_⟩
  · simp [lengthSamples, durationOf, WORK_RATE]
  · intro modD2 carD2 h1 h2
    unfold lengthSamples
    rw [h1, h2]
  · intro h3 h2
    unfold lengthSamples
    rw [h3, h2]
    rw [min_eq_right (by norm_num : (2 : ℚ) ≤ 3)]
    norm_num [WORK_RATE]
    rfl

/-- Witness for C3 on a 3-second 44.1 kHz modulator and a 2-second 48 kHz
carrier. -/
theorem outputLength_spec_witness :
    0 < modWitnessBuf.sampleRate ∧ 0 < carWitnessBuf.sampleRate ∧
    (lengthSamples modWitnessBuf carWitnessBuf =
      (⌊min ((modWitnessBuf.length : ℚ) / (modWitnessBuf.sampleRate : ℚ))
          ((carWitnessBuf.length : ℚ) / (carWitnessBuf.sampleRate : ℚ)) * 48000⌋).toNat ∧
    (∀ modD2 carD2 : DecodedAudio, durationOf modD2 = durationOf modWitnessBuf →
      durationOf carD2 = durationOf carWitnessBuf →
      lengthSamples modD2 carD2 = lengthSamples modWitnessBuf carWitnessBuf) ∧
    ((lengthSamples modWitnessBuf carWitnessBuf : ℚ) ≤ durationOf modWitnessBuf * 48000) ∧
    ((lengthSamples modWitnessBuf carWitnessBuf : ℚ) ≤ durationOf carWitnessBuf * 48000) ∧
    (durationOf modWitnessBuf = 3 → durationOf carWitnessBuf = 2 →
      lengthSamples modWitnessBuf carWitnessBuf = 96000)) :=
  ⟨by norm_num [modWitnessBuf], by norm_num [carWitnessBuf],
    outputLength_spec modWitnessBuf carWitnessBuf
      (by norm_num [modWitnessBuf]) (by norm_num [carWitnessBuf])⟩

theorem modcar_lengthSamples : lengthSamples modWitnessBuf carWitnessBuf = 96000 := by
  have h3 : durationOf modWitnessBuf = 3 := by
    norm_num [durationOf, modWitnessBuf]
  have h2 : durationOf carWitnessBuf = 2 := by
    norm_num [durationOf, carWitnessBuf]
  unfold lengthSamples
  rw [h3, h2, min_eq_right (by norm_num : (2 : ℚ) ≤ 3)]
  norm_num [WORK_RATE]
  rfl

/-- C4 counterexample: at the out-of-range width 150 the engine raises no
`ValidationError` — with two decodable inputs of positive duration the call
reaches rendering and succeeds, and with an undecodable modulator the decode
step is reached and a decode error (not a validation error) is reported. -/
theorem widthValidation_counterexample :
    vocSucceeds (runVocoder (some modWitnessBuf) (some carWitnessBuf) 150) = true ∧
    runVocoder none (some carWitnessBuf) 150 = Except.error VocError.decodeError := by
  constructor
  · have hlen := modcar_lengthSamples
    simp [runVocoder, vocSucceeds, hlen]
  · rfl

/-- C4 amended: `runVocoder` performs no width validation — whether a call
errors never depends on the width, and for decoded inputs whose computed
output length is nonzero, rendering proceeds at every width value, in range
or not; the out-of-range widths -5 and 150 are accepted and map to Q-factors
outside `[0.5, 15]` (15.725 and -6.75). The only post-decode failure is the
zero-length rendering context of an empty input, and width-range enforcement
exists only in the calling layer's slash-command option bounds. -/
theorem widthValidation_amended (modD carD : DecodedAudio) (w w2 : ℝ)
    (hlen : lengthSamples modD carD ≠ 0) :
    vocSucceeds (runVocoder (some modD) (some carD) w) = true ∧
    (∀ d e : DecodedAudio, vocSucceeds (runVocoder (some d) (some e) w) =
      vocSucceeds (runVocoder (some d) (some e) w2)) ∧
    qFactor (-5) = 15.725 ∧ qFactor 150 = -6.75 := by
  refine ⟨by simp [runVocoder, vocSucceeds, hlen], ?_,
    by norm_num [qFactor, maxQ, minQ], by norm_num [qFactor, maxQ, minQ]⟩
  intro d e
  by_cases h : lengthSamples d e = 0
  · simp [runVocoder, vocSucceeds, h]
  · simp [runVocoder, vocSucceeds, h]

/-- Witness for C4's amended theorem at the widths 150 and -5 on decodable
inputs of durations 3 s and 2 s. -/
theorem widthValidation_amended_witness :
    lengthSamples modWitnessBuf carWitnessBuf ≠ 0 ∧
    (vocSucceeds (runVocoder (some modWitnessBuf) (some carWitnessBuf) 150) = true ∧
    (∀ d e : DecodedAudio, vocSucceeds (runVocoder (some d) (some e) 150) =
      vocSucceeds (runVocoder (some d) (some e) (-5))) ∧
    qFactor (-5) = 15.725 ∧ qFactor 150 = -6.75) :=
  ⟨by rw [modcar_lengthSamples]; norm_num,
    widthValidation_amended modWitnessBuf carWitnessBuf 150 (-5)
      (by rw [modcar_lengthSamples]; norm_num)⟩

/-- C7: the engine is deterministic — byte-identical decoded inputs and equal
width give identical results, both for the full engine call and for every
rendered output sample; the embedding is a pure function of its arguments
with no randomness or clock input. -/
theorem determinism_spec (m1 m2 c1 c2 : Option DecodedAudio) (w1 w2 : ℝ)
    (hm : m1 = m2) (hc : c1 = c2) (hw : w1 = w2) :
    runVocoder m1 c1 w1 = runVocoder m2 c2 w2 ∧
    (∀ (d1 d2 e1 e2 : DecodedAudio), d1 = d2 → e1 = e2 →
      ∀ n, renderedOutput d1 e1 w1 n = renderedOutput d2 e2 w2 n) := by
  subst hm; subst hc; subst hw
  exact ⟨rfl, fun d1 d2 e1 e2 h1 h2 n => by rw [h1, h2]⟩

/-- Witness for C7 on concrete one-frame buffers at width 50. -/
theorem determinism_spec_witness :
    (some impulseMod : Option DecodedAudio) = some impulseMod ∧
    (some monoCarBuf : Option DecodedAudio) = some monoCarBuf ∧
    (50 : ℝ) = 50 ∧
    (runVocoder (some impulseMod) (some monoCarBuf) 50 =
      runVocoder (some impulseMod) (some monoCarBuf) 50 ∧
    (∀ (d1 d2 e1 e2 : DecodedAudio), d1 = d2 → e1 = e2 →
      ∀ n, renderedOutput d1 e1 50 n = renderedOutput d2 e2 50 n)) :=
  ⟨rfl, rfl, rfl,
    determinism_spec (some impulseMod) (some impulseMod)
      (some monoCarBuf) (some monoCarBuf) 50 50 rfl rfl rfl⟩

/-- C5: the rectifier table has exactly 65536 entries; entry `i` equals
`|2·i/65536 - 1|`, which is the absolute value of the sampled input
`x_i = 2·i/65536 - 1` ranging over `[-1, 1)`; the construction is a pure
function of the index. -/
theorem absCurve_spec (i : ℕ) (h : i < 65536) :
    getAbsCurve.length = 65536 ∧
    getAbsCurve.getD i 0 = |(i : ℚ) * 2 / 65536 - 1| ∧
    -1 ≤ sampledInput i ∧ sampledInput i < 1 ∧
    getAbsCurve.getD i 0 = |sampledInput i| := by
  refine ⟨by simp [getAbsCurve], ?_, ?_, ?_, ?_⟩
  · rw [getAbsCurve_getD i h]; rfl
  · unfold sampledInput
    have h0 : (0 : ℚ) ≤ (i : ℚ) * 2 / 65536 :=
      div_nonneg (mul_nonneg (Nat.cast_nonneg i) (by norm_num)) (by norm_num)
    linarith
  · unfold sampledInput
    have hi : (i : ℚ) < 65536 := by exact_mod_cast h
    have : (i : ℚ) * 2 / 65536 < 2 := by
      rw [div_lt_iff₀ (by norm_num : (0 : ℚ) < 65536)]
      linarith
    linarith
  · rw [getAbsCurve_getD i h]; rfl

/-- Witness for C5 at index 12345. -/
theorem absCurve_spec_witness :
    12345 < 65536 ∧
    (getAbsCurve.length = 65536 ∧
      getAbsCurve.getD 12345 0 = |(12345 : ℚ) * 2 / 65536 - 1| ∧
      -1 ≤ sampledInput 12345 ∧ sampledInput 12345 < 1 ∧
      getAbsCurve.getD 12345 0 = |sampledInput 12345|) :=
  ⟨by norm_num, absCurve_spec 12345 (by norm_num)⟩

/-- C10: calling `runVocoder` with the width argument omitted behaves
identically to calling it with width 50 (the parameter's declared default),
for every pair of input buffers. -/
theorem defaultWidth_spec :
    ∀ modDecoded carDecoded : Option DecodedAudio,
      runVocoder modDecoded carDecoded = runVocoder modDecoded carDecoded 50 :=
  fun _ _ => rfl

/-! ## Helper lemmas for the band planner (C2) -/

theorem logFrequencies_length (a b : ℝ) (n : ℕ) : (logFrequencies a b n).length = n := by
  simp [logFrequencies]

theorem logFrequencies_getD (a b : ℝ) (n i : ℕ) (h : i < n) :
    (logFrequencies a b n).getD i 0 = freqAt a b n i := by
  have hlen : i < (logFrequencies a b n).length := by simpa [logFrequencies] using h
  rw [List.getD_eq_getElem _ _ hlen]
  simp [logFrequencies]

theorem logStep_pos (a b : ℝ) (n : ℕ) (h0 : 0 < a) (h1 : a < b) (h2 : 2 ≤ n) :
    0 < (Real.log b - Real.log a) / ((n : ℝ) - 1) := by
  have hlog : Real.log a < Real.log b := Real.log_lt_log h0 h1
  have hn : (2 : ℝ) ≤ (n : ℝ) := by exact_mod_cast h2
  exact div_pos (by linarith) (by linarith)

theorem freqAt_lt_freqAt (a b : ℝ) (n : ℕ) (h0 : 0 < a) (h1 : a < b) (h2 : 2 ≤ n)
    (i j : ℕ) (hij : i < j) : freqAt a b n i < freqAt a b n j := by
  unfold freqAt
  apply Real.exp_lt_exp.mpr
  have hstep := logStep_pos a b n h0 h1 h2
  have hcast : (i : ℝ) < (j : ℝ) := by exact_mod_cast hij
  have := mul_lt_mul_of_pos_left hcast hstep
  linarith

theorem freqAt_zero (a b : ℝ) (n : ℕ) (h0 : 0 < a) : freqAt a b n 0 = a := by
  unfold freqAt
  simp [Real.exp_log h0]

theorem freqAt_last (a b : ℝ) (n : ℕ) (h0 : 0 < a) (hb : 0 < b) (h2 : 2 ≤ n) :
    freqAt a b n (n - 1) = b := by
  unfold freqAt
  have h1n : 1 ≤ n := le_trans (by norm_num) h2
  have hn1 : ((n - 1 : ℕ) : ℝ) = (n : ℝ) - 1 := by
    push_cast [h1n]
    ring
  rw [hn1]
  have hne : (n : ℝ) - 1 ≠ 0 := by
    have : (2 : ℝ) ≤ (n : ℝ) := by exact_mod_cast h2
    intro hcon
    linarith
  rw [div_mul_cancel₀ _ hne]
  have : Real.log a + (Real.log b - Real.log a) = Real.log b := by ring
  rw [this]
  exact Real.exp_log hb

theorem freqAt_log_step (a b : ℝ) (n i : ℕ) :
    Real.log (freqAt a b n (i + 1)) - Real.log (freqAt a b n i)
      = (Real.log b - Real.log a) / ((n : ℝ) - 1) := by
  unfold freqAt
  rw [Real.log_exp, Real.log_exp]
  push_cast
  ring

/-- C2: for `minHz > 0`, `maxHz > minHz`, `count ≥ 2`, `logFrequencies`
returns exactly `count` frequencies with
`f[i] = exp(ln minHz + i·(ln maxHz - ln minHz)/(count-1))`, strictly
increasing from `minHz` to `maxHz`; in the engine's call
`logFrequencies(80, 7000, 16)` the 16 values start at 80, end at 7000, are
strictly increasing and have equal consecutive log differences
`(ln 7000 - ln 80)/15`; the function is a pure function of its arguments. -/
theorem logFrequencies_spec (minHz maxHz : ℝ) (count : ℕ)
    (h0 : 0 < minHz) (h1 : minHz < maxHz) (h2 : 2 ≤ count) :
    (logFrequencies minHz maxHz count).length = count ∧
    (∀ i, i < count → (logFrequencies minHz maxHz count).getD i 0 =
      Real.exp (Real.log minHz +
        (Real.log maxHz - Real.log minHz) / ((count : ℝ) - 1) * (i : ℝ))) ∧
    (∀ i j, i < j → j < count →
      (logFrequencies minHz maxHz count).getD i 0 <
        (logFrequencies minHz maxHz count).getD j 0) ∧
    (logFrequencies minHz maxHz count).getD 0 0 = minHz ∧
    (logFrequencies minHz maxHz count).getD (count - 1) 0 = maxHz ∧
    (logFrequencies 80 7000 16).length = 16 ∧
    (logFrequencies 80 7000 16).getD 0 0 = 80 ∧
    (logFrequencies 80 7000 16).getD 15 0 = 7000 ∧
    (∀ i, i < 15 →
      Real.log ((logFrequencies 80 7000 16).getD (i + 1) 0) -
        Real.log ((logFrequencies 80 7000 16).getD i 0) =
        (Real.log 7000 - Real.log 80) / 15) ∧
    (∀ i, i < 15 →
      (logFrequencies 80 7000 16).getD i 0 < (logFrequencies 80 7000 16).getD (i + 1) 0) := by
  have hc0 : 0 < count := lt_of_lt_of_le (by norm_num) h2
  refine ⟨logFrequencies_length minHz maxHz count, ?_, ?_, ?_, ?_,
    logFrequencies_length 80 7000 16, ?_, ?_, ?_, ?_⟩
  · intro i hi
    rw [logFrequencies_getD minHz maxHz count i hi]
    rfl
  · intro i j hij hj
    rw [logFrequencies_getD minHz maxHz count i (lt_trans hij hj),
      logFrequencies_getD minHz maxHz count j hj]
    exact freqAt_lt_freqAt minHz maxHz count h0 h1 h2 i j hij
  · rw [logFrequencies_getD minHz maxHz count 0 hc0]
    exact freqAt_zero minHz maxHz count h0
  · rw [logFrequencies_getD minHz maxHz count (count - 1) (Nat.sub_lt hc0 (by norm_num))]
    exact freqAt_last minHz maxHz count h0 (lt_trans h0 h1) h2
  · rw [logFrequencies_getD 80 7000 16 0 (by norm_num)]
    exact freqAt_zero 80 7000 16 (by norm_num)
  · rw [logFrequencies_getD 80 7000 16 15 (by norm_num)]
    have h15 : (16 : ℕ) - 1 = 15 := by norm_num
    rw [← h15]
    exact freqAt_last 80 7000 16 (by norm_num) (by norm_num) (by norm_num)
  · intro i hi
    rw [logFrequencies_getD 80 7000 16 (i + 1) (by omega),
      logFrequencies_getD 80 7000 16 i (by omega)]
    have := freqAt_log_step 80 7000 16 i
    rw [this]
    norm_num
  · intro i hi
    rw [logFrequencies_getD 80 7000 16 (i + 1) (by omega),
      logFrequencies_getD 80 7000 16 i (by omega)]
    exact freqAt_lt_freqAt 80 7000 16 (by norm_num) (by norm_num) (by norm_num)
      i (i + 1) (by omega)

/-- Witness for C2 at the engine's own call `(80, 7000, 16)`. -/
theorem logFrequencies_spec_witness :
    (0 : ℝ) < 80 ∧ (80 : ℝ) < 7000 ∧ 2 ≤ 16 ∧
    ((logFrequencies 80 7000 16).length = 16 ∧
    (∀ i, i < 16 → (logFrequencies 80 7000 16).getD i 0 =
      Real.exp (Real.log 80 +
        (Real.log 7000 - Real.log 80) / ((16 : ℕ) - 1 : ℝ) * (i : ℝ))) ∧
    (∀ i j, i < j → j < 16 →
      (logFrequencies 80 7000 16).getD i 0 < (logFrequencies 80 7000 16).getD j 0) ∧
    (logFrequencies 80 7000 16).getD 0 0 = 80 ∧
    (logFrequencies 80 7000 16).getD (16 - 1) 0 = 7000 ∧
    (logFrequencies 80 7000 16).length = 16 ∧
    (logFrequencies 80 7000 16).getD 0 0 = 80 ∧
    (logFrequencies 80 7000 16).getD 15 0 = 7000 ∧
    (∀ i, i < 15 →
      Real.log ((logFrequencies 80 7000 16).getD (i + 1) 0) -
        Real.log ((logFrequencies 80 7000 16).getD i 0) =
        (Real.log 7000 - Real.log 80) / 15) ∧
    (∀ i, i < 15 →
      (logFrequencies 80 7000 16).getD i 0 < (logFrequencies 80 7000 16).getD (i + 1) 0)) :=
  ⟨by norm_num, by norm_num, by norm_num,
    logFrequencies_spec 80 7000 16 (by norm_num) (by norm_num) (by norm_num)⟩

/-! ## Helper lemmas for the soft-clip table (C6) -/

theorem getSoftClipCurve_getD (i : ℕ) (h : i < 65536) :
    getSoftClipCurve.getD i 0 = softClipEntry i := by
  have hlen : i < getSoftClipCurve.length := by simpa [getSoftClipCurve] using h
  rw [List.getD_eq_getElem _ _ hlen]
  simp [getSoftClipCurve]

theorem softClipEntry_bounds (i : ℕ) : -1 < softClipEntry i ∧ softClipEntry i < 1 := by
  unfold softClipEntry
  have h2pi : 0 < 2 / Real.pi := by positivity
  constructor
  · have harc := Real.neg_pi_div_two_lt_arctan (2 * ((i : ℝ) * 2 / 65536 - 1))
    have hlt := mul_lt_mul_of_pos_left harc h2pi
    have heq : 2 / Real.pi * -(Real.pi / 2) = -1 := by
      field_simp
      ring
    linarith
  · have harc := Real.arctan_lt_pi_div_two (2 * ((i : ℝ) * 2 / 65536 - 1))
    have hlt := mul_lt_mul_of_pos_left harc h2pi
    have heq : 2 / Real.pi * (Real.pi / 2) = 1 := by
      field_simp
    linarith

theorem softClipEntry_mid : softClipEntry 32768 = 0 := by
  unfold softClipEntry
  norm_num [Real.arctan_zero]

theorem softClipEntry_odd (i j : ℕ)
    (h : ((sampledInput j : ℚ) : ℝ) = -((sampledInput i : ℚ) : ℝ)) :
    softClipEntry j = -softClipEntry i := by
  unfold softClipEntry
  simp only [sampledInput] at h
  push_cast at h
  have hx : (j : ℝ) * 2 / 65536 - 1 = -((i : ℝ) * 2 / 65536 - 1) := by linarith
  rw [hx, mul_neg, Real.arctan_neg]
  ring

/-- C6: the soft-clip table has 65536 entries with entry `i` equal to
`(2/π)·atan(2·(2·i/65536 - 1))`; every entry lies strictly inside `(-1, 1)`,
the entry at the sample point `x = 0` (index 32768) is exactly 0, and the
table is odd-symmetric: indices whose sampled inputs are negatives of each
other hold entries that are negatives of each other. -/
theorem softClip_spec (i j : ℕ) (hi : i < 65536) (hj : j < 65536)
    (hsym : ((sampledInput j : ℚ) : ℝ) = -((sampledInput i : ℚ) : ℝ)) :
    getSoftClipCurve.length = 65536 ∧
    getSoftClipCurve.getD i 0 =
      2 / Real.pi * Real.arctan (2 * ((i : ℝ) * 2 / 65536 - 1)) ∧
    (-1 < getSoftClipCurve.getD i 0 ∧ getSoftClipCurve.getD i 0 < 1) ∧
    (sampledInput 32768 = 0 ∧ getSoftClipCurve.getD 32768 0 = 0) ∧
    getSoftClipCurve.getD j 0 = -(getSoftClipCurve.getD i 0) := by
  refine ⟨by simp [getSoftClipCurve], ?_, ?_, ⟨by norm_num [sampledInput], ?_⟩, ?_⟩
  · rw [getSoftClipCurve_getD i hi]
    rfl
  · rw [getSoftClipCurve_getD i hi]
    exact softClipEntry_bounds i
  · rw [getSoftClipCurve_getD 32768 (by norm_num)]
    exact softClipEntry_mid
  · rw [getSoftClipCurve_getD j hj, getSoftClipCurve_getD i hi]
    exact softClipEntry_odd i j hsym

/-- Witness for C6 at the index pair (16384, 49152), whose sampled inputs are
-1/2 and 1/2. -/
theorem softClip_spec_witness :
    16384 < 65536 ∧ 49152 < 65536 ∧
    ((sampledInput 49152 : ℚ) : ℝ) = -((sampledInput 16384 : ℚ) : ℝ) ∧
    (getSoftClipCurve.length = 65536 ∧
    getSoftClipCurve.getD 16384 0 =
      2 / Real.pi * Real.arctan (2 * ((16384 : ℝ) * 2 / 65536 - 1)) ∧
    (-1 < getSoftClipCurve.getD 16384 0 ∧ getSoftClipCurve.getD 16384 0 < 1) ∧
    (sampledInput 32768 = 0 ∧ getSoftClipCurve.getD 32768 0 = 0) ∧
    getSoftClipCurve.getD 49152 0 = -(getSoftClipCurve.getD 16384 0)) :=
  ⟨by norm_num, by norm_num, by push_cast [sampledInput]; norm_num,
    softClip_spec 16384 49152 (by norm_num) (by norm_num)
      (by push_cast [sampledInput]; norm_num)⟩

/-! ## Zero-propagation helper lemmas (C8) -/

theorem biquadState_zero (c : BiquadCoeffs) (u : ℕ → ℝ) (hu : ∀ n, u n = 0) :
    ∀ n, biquadState c u n = (0, 0, 0, 0) := by
  intro n
  induction n with
  | zero => rfl
  | succ m ih =>
    show (biquadStep c (biquadState c u m) (u m)).2 = (0, 0, 0, 0)
    rw [ih, hu m]
    simp [biquadStep]

theorem biquad_zero (c : BiquadCoeffs) (u : ℕ → ℝ) (hu : ∀ n, u n = 0) :
    ∀ n, biquad c u n = 0 := by
  intro n
  unfold biquad
  rw [biquadState_zero c u hu n, hu n]
  simp [biquadStep]

theorem sourceSignal_zero (d : DecodedAudio) (ch : ℕ)
    (h : ∀ n, d.channelData ch n = 0) : ∀ n, sourceSignal d ch n = 0 := by
  intro n
  unfold sourceSignal sampleAt
  simp [h]

theorem downmix_zero (k : ℕ) : downmixAt k (fun _ => (0 : ℝ)) = 0 := by
  unfold downmixAt
  simp

theorem compress_zero (x : ℕ → ℝ) (n : ℕ) (h : x n = 0) : compress x n = 0 := by
  unfold compress
  rw [h]
  simp

theorem softClipShape_zero : softClipShape 0 = 0 := by
  unfold softClipShape
  simp [Real.arctan_zero]

theorem postChain_zero (x : ℕ → ℝ) (n : ℕ) (h : x n = 0) : postChain x n = 0 := by
  unfold postChain
  rw [compress_zero x n h, mul_zero]
  exact softClipShape_zero

theorem envelopeMono_zero (q f : ℝ) (modD : DecodedAudio)
    (hz : ∀ ch n, modD.channelData ch n = 0) :
    (∀ ch n, envelopeSig q f modD ch n = 0) ∧ ∀ n, envelopeMono q f modD n = 0 := by
  have hrect : ∀ ch m, rectified q f modD ch m = 0 := by
    intro ch m
    unfold rectified absShape
    rw [biquad_zero _ _ (sourceSignal_zero modD ch (hz ch)) m]
    simp
  have henv : ∀ ch m, envelopeSig q f modD ch m = 0 := by
    intro ch m
    unfold envelopeSig
    exact biquad_zero _ _ (hrect ch) m
  refine ⟨henv, fun n => ?_⟩
  unfold envelopeMono
  have hfun : (fun ch => envelopeSig q f modD ch n) = fun _ => (0 : ℝ) :=
    funext fun ch => henv ch n
  rw [hfun]
  exact downmix_zero _

/-- C8: with an all-zero modulator every band's envelope signal is zero
everywhere, every band gain stays at its base value 0, every band contributes
silence to the summing bus, the post-processing chain maps the zero signal to
zero, and the rendered output is all-zero for every carrier and every width. -/
theorem silence_spec (modD carD : DecodedAudio) (w : ℝ)
    (hz : ∀ ch n, modD.channelData ch n = 0) :
    (∀ f ch n, envelopeSig (qFactor w) f modD ch n = 0) ∧
    (∀ f n, bandGainBase + envelopeMono (qFactor w) f modD n = 0) ∧
    (∀ f ch n, bandOut (qFactor w) f modD carD ch n = 0) ∧
    (∀ ch n, summedSig (qFactor w) modD carD ch n = 0) ∧
    (∀ n, renderedOutput modD carD w n = 0) := by
  have henvs := fun f => envelopeMono_zero (qFactor w) f modD hz
  have hgain : ∀ f n, bandGainBase + envelopeMono (qFactor w) f modD n = 0 := by
    intro f n
    rw [(henvs f).2 n]
    simp [bandGainBase]
  have hband : ∀ f ch n, bandOut (qFactor w) f modD carD ch n = 0 := by
    intro f ch n
    unfold bandOut
    rw [hgain f n, zero_mul]
  have hsum : ∀ ch n, summedSig (qFactor w) modD carD ch n = 0 := by
    intro ch n
    unfold summedSig
    rw [List.sum_eq_zero, mul_zero]
    intro x hx
    obtain ⟨f, _, hfx⟩ := List.mem_map.mp hx
    rw [← hfx]
    exact hband f ch n
  refine ⟨fun f => (henvs f).1, hgain, hband, hsum, fun n => ?_⟩
  unfold renderedOutput
  have hch : (fun ch => renderedChannel w modD carD ch n) = fun _ => (0 : ℝ) := by
    funext ch
    unfold renderedChannel
    exact postChain_zero _ n (hsum ch n)
  rw [hch]
  exact downmix_zero _

/-- Witness for C8: the all-zero 3-second modulator with a unit-impulse
carrier at width 50 renders silence. -/
theorem silence_spec_witness :
    (∀ ch n, modWitnessBuf.channelData ch n = 0) ∧
    ((∀ f ch n, envelopeSig (qFactor 50) f modWitnessBuf ch n = 0) ∧
    (∀ f n, bandGainBase + envelopeMono (qFactor 50) f modWitnessBuf n = 0) ∧
    (∀ f ch n, bandOut (qFactor 50) f modWitnessBuf impulseMod ch n = 0) ∧
    (∀ ch n, summedSig (qFactor 50) modWitnessBuf impulseMod ch n = 0) ∧
    (∀ n, renderedOutput modWitnessBuf impulseMod 50 n = 0)) :=
  ⟨fun _ _ => rfl, silence_spec modWitnessBuf impulseMod 50 (fun _ _ => rfl)⟩

/-! ## Positivity helper lemmas for the band graph (C9) -/

theorem compThreshold_pos : 0 < compThreshold :=
  Real.rpow_pos_of_pos (by norm_num) _

theorem compressorGain_pos (level : ℝ) : 0 < compressorGain level := by
  by_cases h : level ≤ compThreshold
  · simp [compressorGain, h]
  · simp only [compressorGain, if_neg h]
    push_neg at h
    have hT := compThreshold_pos
    have hlpos : 0 < level := lt_trans hT h
    apply div_pos _ hlpos
    have hfrac : 0 < (level - compThreshold) / compRatio :=
      div_pos (by linarith) (by norm_num [compRatio])
    linarith

theorem compress_pos (x : ℕ → ℝ) (n : ℕ) (h : 0 < x n) : 0 < compress x n := by
  unfold compress
  exact mul_pos (compressorGain_pos _) h

theorem softClipShape_pos (x : ℝ) (h : 0 < x) : 0 < softClipShape x := by
  unfold softClipShape
  have harc := Real.arctan_strictMono (show (0 : ℝ) < 2 * x by linarith)
  rw [Real.arctan_zero] at harc
  exact mul_pos (by positivity) harc

theorem postChain_pos (x : ℕ → ℝ) (n : ℕ) (h : 0 < x n) : 0 < postChain x n := by
  unfold postChain
  apply softClipShape_pos
  have hc := compress_pos x n h
  simp only [makeupGainValue]
  linarith

theorem frequencies_bounds : ∀ f ∈ frequencies, 80 ≤ f ∧ f ≤ 7000 := by
  intro f hf
  unfold frequencies logFrequencies bands at hf
  obtain ⟨i, hi, hfi⟩ := List.mem_map.mp hf
  rw [List.mem_range] at hi
  subst hfi
  unfold freqAt
  have hlog : Real.log 80 < Real.log 7000 := Real.log_lt_log (by norm_num) (by norm_num)
  have h16 : ((16 : ℕ) : ℝ) - 1 = 15 := by norm_num
  rw [h16]
  have hstep : 0 ≤ (Real.log 7000 - Real.log 80) / 15 :=
    div_nonneg (by linarith) (by norm_num)
  have hi15 : (i : ℝ) ≤ 15 := by
    have hle : i ≤ 15 := by omega
    exact_mod_cast hle
  constructor
  · have h1 : Real.log 80 ≤ Real.log 80 + (Real.log 7000 - Real.log 80) / 15 * (i : ℝ) := by
      have := mul_nonneg hstep (Nat.cast_nonneg i)
      linarith
    calc (80 : ℝ) = Real.exp (Real.log 80) := (Real.exp_log (by norm_num)).symm
      _ ≤ Real.exp (Real.log 80 + (Real.log 7000 - Real.log 80) / 15 * (i : ℝ)) :=
          Real.exp_le_exp.mpr h1
  · have hmul : (Real.log 7000 - Real.log 80) / 15 * (i : ℝ) ≤
        (Real.log 7000 - Real.log 80) / 15 * 15 :=
      mul_le_mul_of_nonneg_left hi15 hstep
    have h15 : (Real.log 7000 - Real.log 80) / 15 * 15 = Real.log 7000 - Real.log 80 := by
      field_simp
    have h1 : Real.log 80 + (Real.log 7000 - Real.log 80) / 15 * (i : ℝ) ≤ Real.log 7000 := by
      linarith
    calc Real.exp (Real.log 80 + (Real.log 7000 - Real.log 80) / 15 * (i : ℝ))
        ≤ Real.exp (Real.log 7000) := Real.exp_le_exp.mpr h1
      _ = 7000 := Real.exp_log (by norm_num)

theorem omega0_bounds (f : ℝ) (hf : 0 < f) (h7k : f ≤ 7000) :
    0 < omega0 f ∧ omega0 f < Real.pi := by
  unfold omega0 WORK_RATE
  push_cast
  have hpi := Real.pi_pos
  constructor
  · apply div_pos _ (by norm_num : (0 : ℝ) < 48000)
    nlinarith
  · rw [div_lt_iff₀ (by norm_num : (0 : ℝ) < 48000)]
    nlinarith

theorem bandpassCoeffs_b0 (f q : ℝ) :
    (bandpassCoeffs f q).b0 =
      Real.sin (omega0 f) / (2 * q) / (1 + Real.sin (omega0 f) / (2 * q)) := rfl

theorem lowpassCoeffs_b0 (f : ℝ) :
    (lowpassCoeffs f).b0 = (1 - Real.cos (omega0 f)) / 2 /
      (1 + Real.sin (omega0 f) / (2 * (10 : ℝ) ^ ((1 : ℝ) / 20))) := rfl

theorem bandpass_b0_pos (f q : ℝ) (hq : 0 < q) (h1 : 0 < omega0 f) (h2 : omega0 f < Real.pi) :
    0 < (bandpassCoeffs f q).b0 := by
  rw [bandpassCoeffs_b0]
  have hsin : 0 < Real.sin (omega0 f) := Real.sin_pos_of_pos_of_lt_pi h1 h2
  have halpha : 0 < Real.sin (omega0 f) / (2 * q) := div_pos hsin (by linarith)
  exact div_pos halpha (by linarith)

theorem lowpass_b0_pos (f : ℝ) (h1 : 0 < omega0 f) (h2 : omega0 f < Real.pi) :
    0 < (lowpassCoeffs f).b0 := by
  rw [lowpassCoeffs_b0]
  have hsin : 0 < Real.sin (omega0 f) := Real.sin_pos_of_pos_of_lt_pi h1 h2
  have hcos : Real.cos (omega0 f) < 1 := by
    have h0m : (0 : ℝ) ∈ Set.Icc 0 Real.pi := ⟨le_refl 0, Real.pi_pos.le⟩
    have hwm : omega0 f ∈ Set.Icc 0 Real.pi := ⟨h1.le, h2.le⟩
    have hlt := Real.strictAntiOn_cos h0m hwm h1
    rwa [Real.cos_zero] at hlt
  have hrpow : 0 < (10 : ℝ) ^ ((1 : ℝ) / 20) := Real.rpow_pos_of_pos (by norm_num) _
  have halpha : 0 < Real.sin (omega0 f) / (2 * (10 : ℝ) ^ ((1 : ℝ) / 20)) :=
    div_pos hsin (by linarith)
  exact div_pos (div_pos (by linarith) (by norm_num)) (by linarith)

theorem biquad_at_zero (c : BiquadCoeffs) (u : ℕ → ℝ) :
    biquad c u 0 = c.b0 * u 0 := by
  show c.b0 * u 0 + c.b1 * 0 + c.b2 * 0 - c.a1 * 0 - c.a2 * 0 = c.b0 * u 0
  ring

theorem sourceSignal_at_zero (d : DecodedAudio) (ch : ℕ) :
    sourceSignal d ch 0 = sampleAt d ch 0 := by
  unfold sourceSignal
  norm_num

theorem renderedChannel_zero (w : ℝ) (modD carD : DecodedAudio) (ch : ℕ)
    (h : ∀ n, carD.channelData ch n = 0) :
    ∀ n, renderedChannel w modD carD ch n = 0 := by
  intro n
  unfold renderedChannel
  apply postChain_zero
  unfold summedSig
  rw [List.sum_eq_zero, mul_zero]
  intro x hx
  obtain ⟨f, _, hfx⟩ := List.mem_map.mp hx
  rw [← hfx]
  unfold bandOut
  rw [biquad_zero _ _ (sourceSignal_zero carD ch h) n, mul_zero]

theorem qFactor50_pos : 0 < qFactor 50 := by
  norm_num [qFactor, maxQ, minQ]

theorem rightStereo_sample : sourceSignal rightStereoCar 1 0 = 1 := by
  rw [sourceSignal_at_zero]
  norm_num [sampleAt, rightStereoCar]

theorem impulseMod_sample : sourceSignal impulseMod 0 0 = 1 := by
  rw [sourceSignal_at_zero]
  norm_num [sampleAt, impulseMod]

theorem envelopeMono_impulse_pos (f : ℝ) (h80 : 80 ≤ f) (h7k : f ≤ 7000) :
    0 < envelopeMono (qFactor 50) f impulseMod 0 := by
  obtain ⟨hw1, hw2⟩ := omega0_bounds f (by linarith) h7k
  have hb0bp := bandpass_b0_pos f (qFactor 50) qFactor50_pos hw1 hw2
  obtain ⟨hc1, hc2⟩ := omega0_bounds envelopeCutoff (by norm_num [envelopeCutoff])
    (by norm_num [envelopeCutoff])
  have hb0lp := lowpass_b0_pos envelopeCutoff hc1 hc2
  unfold envelopeMono
  have hchn : impulseMod.numberOfChannels = 1 := rfl
  rw [hchn]
  unfold downmixAt
  norm_num
  unfold envelopeSig
  rw [biquad_at_zero]
  apply mul_pos hb0lp
  unfold rectified absShape
  rw [biquad_at_zero, impulseMod_sample, mul_one]
  rw [abs_of_pos hb0bp]
  exact hb0bp

theorem frequencies_ne_nil : frequencies ≠ [] := by
  intro hcon
  have hlen := congrArg List.length hcon
  simp [frequencies, logFrequencies, bands] at hlen

theorem summed_right_pos : 0 < summedSig (qFactor 50) impulseMod rightStereoCar 1 0 := by
  unfold summedSig summingGainValue
  rw [one_mul]
  apply List.sum_pos
  · intro x hx
    obtain ⟨f, hf, hfx⟩ := List.mem_map.mp hx
    obtain ⟨h80, h7k⟩ := frequencies_bounds f hf
    rw [← hfx]
    unfold bandOut bandGainBase
    rw [zero_add]
    apply mul_pos (envelopeMono_impulse_pos f h80 h7k)
    rw [biquad_at_zero, rightStereo_sample, mul_one]
    exact bandpass_b0_pos f (qFactor 50) qFactor50_pos
      (omega0_bounds f (by linarith) h7k).1 (omega0_bounds f (by linarith) h7k).2
  · intro hcon
    have hlen := congrArg List.length hcon
    simp at hlen
    exact frequencies_ne_nil (by simpa using hcon)

theorem renderedChannel_right_pos : 0 < renderedChannel 50 impulseMod rightStereoCar 1 0 := by
  unfold renderedChannel
  exact postChain_pos _ 0 summed_right_pos

theorem sourceSignal_congr (d1 d2 : DecodedAudio) (ch : ℕ)
    (hr : d2.sampleRate = d1.sampleRate) (hl : d2.length = d1.length)
    (hd : ∀ k, d2.channelData ch k = d1.channelData ch k) :
    sourceSignal d2 ch = sourceSignal d1 ch := by
  funext n
  unfold sourceSignal sampleAt
  rw [hr, hl]
  simp only [hd]

/-- C9 counterexample: two stereo carriers that agree on channel 0 (both
silent there) and agree in length, sample rate, modulator and width, but
differ on channel 1, render different outputs — the all-silent carrier
renders 0 at sample 0 while the carrier with an impulse on channel 1 renders
a strictly positive sample, because `createBufferSource` copies every channel
and the mono destination mixes both processed channels. -/
theorem channelZero_counterexample :
    rightStereoCar.sampleRate = silentStereoCar.sampleRate ∧
    rightStereoCar.numberOfChannels = silentStereoCar.numberOfChannels ∧
    rightStereoCar.length = silentStereoCar.length ∧
    (∀ n, rightStereoCar.channelData 0 n = silentStereoCar.channelData 0 n) ∧
    renderedOutput impulseMod rightStereoCar 50 0 ≠
      renderedOutput impulseMod silentStereoCar 50 0 := by
  refine ⟨rfl, rfl, rfl, fun n => by norm_num [rightStereoCar, silentStereoCar], ?_⟩
  have hA : renderedOutput impulseMod silentStereoCar 50 0 = 0 := by
    unfold renderedOutput
    have hch : (fun ch => renderedChannel 50 impulseMod silentStereoCar ch 0) =
        fun _ => (0 : ℝ) := by
      funext ch
      exact renderedChannel_zero 50 impulseMod silentStereoCar ch (fun _ => rfl) 0
    rw [hch]
    exact downmix_zero _
  have hB : 0 < renderedOutput impulseMod rightStereoCar 50 0 := by
    unfold renderedOutput
    have h2 : rightStereoCar.numberOfChannels = 2 := rfl
    rw [h2]
    unfold downmixAt
    norm_num
    have hc0 : renderedChannel 50 impulseMod rightStereoCar 0 0 = 0 :=
      renderedChannel_zero 50 impulseMod rightStereoCar 0
        (fun _ => by norm_num [rightStereoCar]) 0
    rw [hc0]
    have hc1 := renderedChannel_right_pos
    linarith
  rw [hA]
  exact ne_of_gt hB

/-- C9 amended: the engine copies every channel of a decoded input into the
playback buffer and the mono rendering context mixes all carried channels, so
a multi-channel input's higher channels do influence the output; the
channel-0-only property holds for mono-declared inputs: two runs whose inputs
are mono (`numberOfChannels = 1`) and agree on channel 0 (and on length,
sample rate and width) produce identical output even when their sample tables
differ outside channel 0. -/
theorem channelZero_amended (m1 m2 c1 c2 : DecodedAudio) (w : ℝ)
    (hmch : m1.numberOfChannels = 1) (hcch : c1.numberOfChannels = 1)
    (hmch2 : m2.numberOfChannels = 1) (hcch2 : c2.numberOfChannels = 1)
    (hmr : m2.sampleRate = m1.sampleRate) (hcr : c2.sampleRate = c1.sampleRate)
    (hml : m2.length = m1.length) (hcl : c2.length = c1.length)
    (hmd : ∀ k, m2.channelData 0 k = m1.channelData 0 k)
    (hcd : ∀ k, c2.channelData 0 k = c1.channelData 0 k) :
    ∀ n, renderedOutput m2 c2 w n = renderedOutput m1 c1 w n := by
  have hms : sourceSignal m2 0 = sourceSignal m1 0 := sourceSignal_congr m1 m2 0 hmr hml hmd
  have hcs : sourceSignal c2 0 = sourceSignal c1 0 := sourceSignal_congr c1 c2 0 hcr hcl hcd
  have henv : ∀ f n, envelopeMono (qFactor w) f m2 n = envelopeMono (qFactor w) f m1 n := by
    intro f n
    unfold envelopeMono
    rw [hmch2, hmch]
    unfold downmixAt
    norm_num
    unfold envelopeSig rectified
    rw [hms]
  have hsum : ∀ n, summedSig (qFactor w) m2 c2 0 n = summedSig (qFactor w) m1 c1 0 n := by
    intro n
    unfold summedSig
    have hband : (fun f => bandOut (qFactor w) f m2 c2 0 n) =
        fun f => bandOut (qFactor w) f m1 c1 0 n := by
      funext f
      unfold bandOut
      rw [henv f n, hcs]
    rw [hband]
  intro n
  unfold renderedOutput
  rw [hcch2, hcch]
  unfold downmixAt
  norm_num
  unfold renderedChannel
  have hS : (fun m => summedSig (qFactor w) m2 c2 0 m) =
      fun m => summedSig (qFactor w) m1 c1 0 m := funext hsum
  rw [hS]

/-- Witness for C9's amended theorem: replacing the junk data outside channel
0 of a mono modulator leaves every rendered sample unchanged. -/
theorem channelZero_amended_witness :
    impulseMod.numberOfChannels = 1 ∧ monoCarBuf.numberOfChannels = 1 ∧
    impulseModJunk.numberOfChannels = 1 ∧
    impulseModJunk.sampleRate = impulseMod.sampleRate ∧
    impulseModJunk.length = impulseMod.length ∧
    (∀ k, impulseModJunk.channelData 0 k = impulseMod.channelData 0 k) ∧
    (∀ n, renderedOutput impulseModJunk monoCarBuf 50 n =
      renderedOutput impulseMod monoCarBuf 50 n) :=
  ⟨rfl, rfl, rfl, rfl, rfl, fun k => by norm_num [impulseModJunk, impulseMod],
    channelZero_amended impulseMod impulseModJunk monoCarBuf monoCarBuf 50
      rfl rfl rfl rfl rfl rfl rfl rfl
      (fun k => by norm_num [impulseModJunk, impulseMod]) (fun _ => rfl)⟩

end FWD
